import Mathlib

/-!
# Log-directory retention of `logger.js`

A shallow embedding of `prepareLogDir` (src/logger.js, lines 9-50) and of the
file-name codec the logger uses for its archival files (line 93 and line 34).

Modelling conventions.

* A directory is the list of the names of its entries, in the order in which
  `readdirSync` returns them.  A real listing never repeats a name; theorems that
  depend on this carry the hypothesis `entries.Nodup`.
* `readdirSync` either yields that list or fails with an error code
  (`Except String (List String)`).
* `rmSync name` succeeds exactly when `name` is an entry of the directory and then
  removes it; otherwise it throws `ENOENT`.
* `mkdirSync(dirName)` is not recursive: it throws the error code the world holds for it
  (`ENOENT` when the parent is missing, `EACCES` when the parent is not writable, ...) and
  creates the empty directory when the world holds none.
* `new Date(text).getTime()` is a parameter `parseDate : String → Option Int`
  (`none` is `NaN`, i.e. an invalid date); `isoDateParse` is one concrete instance.
* A JavaScript value that is `undefined` or a string is an `Option String`;
  `Math.min` of an empty argument list, `Infinity`, is `none : Option Int`.
* The `while` loop is run with fuel; `none` is returned only when the fuel runs out,
  and `prepareLogDir_total` shows that this never happens.
-/

namespace FrogBot

/-! ## JavaScript primitives -/

/-- JavaScript `fileName.endsWith(".log")`. -/
def endsWithLog (fileName : String) : Bool :=
  ".log".data.isSuffixOf fileName.data

/-- JavaScript `xs.indexOf(x)`: the index of the first element strictly equal to `x`, or `-1`.
No string is strictly equal to `undefined`. -/
def indexOf (xs : List String) : Option String → Int
  | none => -1
  | some x => if x ∈ xs then (List.indexOf x xs : Int) else -1

/-- JavaScript `xs.splice(start, 1)` (the array that is left): a negative `start` counts from the
end, and nothing is removed when the start lies at or beyond the end. -/
def splice (xs : List String) (start : Int) : List String :=
  let len : Int := xs.length
  let actualStart : Int := if start < 0 then max (len + start) 0 else min start len
  xs.eraseIdx actualStart.toNat

/-- JavaScript `s.slice(0, e)`. -/
def slice0 (s : List Char) (e : Int) : List Char :=
  let len : Int := s.length
  let final : Int := if e < 0 then max (len + e) 0 else min e len
  s.take final.toNat

/-- The characters that `.` does not match in a regular expression without the `s` flag. -/
def isLineTerminator (c : Char) : Bool :=
  c == Char.ofNat 10 || c == Char.ofNat 13 || c == Char.ofNat 8232 || c == Char.ofNat 8233

/-- Whether `.*T` matches at the start of `rest`: a `T` that is reached without crossing a
line terminator. -/
def matchesDotStarT (rest : List Char) : Bool :=
  (rest.takeWhile (fun c => !isLineTerminator c)).contains 'T'

/-- JavaScript `s.replace(re, ":")` for the global regular expression `re` of line 34, a hyphen
with the negative lookahead `(?!.*T)`: every hyphen that `.*T` does not match behind is replaced,
all other characters are kept. -/
def replaceHyphens : List Char → List Char
  | [] => []
  | c :: rest =>
    (if c == '-' && !matchesDotStarT rest then ':' else c) :: replaceHyphens rest

/-- JavaScript `s.replace(/:/g, "-")`. -/
def replaceColons (s : List Char) : List Char :=
  s.map (fun c => if c == ':' then '-' else c)

/-- The text handed to `new Date(...)` on lines 33-35: `fileName.slice(0, fileName.length - 4)`
with the replacement of `replaceHyphens` applied. -/
def timestampText (fileName : String) : String :=
  String.mk (replaceHyphens (slice0 fileName.data ((fileName.data.length : Int) - 4)))

/-- The name of the archival file of a session whose `new Date().toISOString()` is `iso`
(lines 93 and 104, without the directory). -/
def archiveFileName (iso : String) : String :=
  String.mk (replaceColons iso.data ++ ".log".data)

/-! ## The `Map` from timestamps to file names -/

/-- A JavaScript `Map` with number keys, as its entries in insertion order. -/
abbrev TimestampMap := List (Int × String)

/-- JavaScript `m.set(k, v)`: an existing key keeps its place and gets the new value. -/
def mapSet : TimestampMap → Int → String → TimestampMap
  | [], k, v => [(k, v)]
  | (k', v') :: rest, k, v =>
    if k' = k then (k, v) :: rest else (k', v') :: mapSet rest k v

/-- JavaScript `Math.min(...keys)`; `none` is `Infinity`. -/
def mathMin : List Int → Option Int
  | [] => none
  | k :: rest =>
    match mathMin rest with
    | none => some k
    | some m => some (min k m)

/-- JavaScript `m.get(k)`; no key of the map is `Infinity`. -/
def mapGet (m : TimestampMap) : Option Int → Option String
  | none => none
  | some k => (m.find? (fun p => p.1 == k)).map Prod.snd

/-- JavaScript `m.delete(k)` (the map that is left). -/
def mapDelete (m : TimestampMap) : Option Int → TimestampMap
  | none => m
  | some k => m.filter (fun p => p.1 != k)

/-- Template-literal conversion of a file name that may be `undefined`. -/
def display : Option String → String
  | none => "undefined"
  | some s => s

/-! ## File system and `prepareLogDir` -/

/-- JavaScript `rmSync(dirName + "/" + name)` on a directory with the given entries. -/
def rmSync (entries : List String) (name : String) : Except String (List String) :=
  if name ∈ entries then .ok (entries.erase name) else .error "ENOENT"

deriving instance DecidableEq for Except

/-- What a call of `prepareLogDir` can observe and change: the result of listing `dirName`
(an error code, or the names of the entries), the error code with which creating `dirName` fails
(`none` when it can be created), and the global counter. -/
structure World where
  dir : Except String (List String)
  mkdirError : Option String
  oldLogsDeleted : Nat
  deriving DecidableEq

/-- JavaScript `mkdirSync(dirName)`, without the `recursive` option: it throws when the directory
cannot be created and otherwise leaves an empty directory. -/
def mkdirSync (w : World) : Except String World :=
  match w.mkdirError with
  | some code => .error code
  | none => .ok { w with dir := .ok [] }

/-- How a call ends. -/
inductive Outcome where
  | returned
  | threw (code : String)
  deriving DecidableEq

/-- The variables of the `while` loop of lines 39-48. -/
structure LoopState where
  entries : List String
  files : List String
  fileNamesTimestamps : TimestampMap
  oldLogsDeleted : Nat
  deriving DecidableEq

/-- The `for` loop of lines 32-38. -/
def collectTimestamps (parseDate : String → Option Int) (files : List String) : TimestampMap :=
  files.foldl
    (fun m fileName =>
      match parseDate (timestampText fileName) with
      | none => m
      | some t => mapSet m t fileName)
    []

/-- The `while` loop of lines 39-48, run for at most `fuel` tests of its condition. -/
def pruneLoop (maxSavedLogs : Int) : Nat → LoopState → Option (Outcome × LoopState)
  | 0, _ => none
  | fuel + 1, s =>
    if (s.files.length : Int) ≥ maxSavedLogs then
      let smallestTimestamp := mathMin (s.fileNamesTimestamps.map Prod.fst)
      let fileToDelete := mapGet s.fileNamesTimestamps smallestTimestamp
      match rmSync s.entries (display fileToDelete) with
      | .error code => some (.threw code, s)
      | .ok entries =>
        pruneLoop maxSavedLogs fuel
          { entries := entries
            files := splice s.files (indexOf s.files fileToDelete)
            fileNamesTimestamps := mapDelete s.fileNamesTimestamps smallestTimestamp
            oldLogsDeleted := s.oldLogsDeleted + 1 }
    else
      some (.returned, s)

/-- The function `prepareLogDir` of lines 9-50, for the configured `maxSavedLogs`. -/
def prepareLogDir (maxSavedLogs : Int) (parseDate : String → Option Int) (w : World) :
    Option (Outcome × World) :=
  match w.dir with
  | .error code =>
    if code = "ENOENT" then
      match mkdirSync w with
      | .error mkdirCode => some (.threw mkdirCode, w)
      | .ok w1 => some (.returned, w1)
    else some (.threw code, w)
  | .ok entries =>
    let files := entries.filter endsWithLog
    let latestLogIndex := indexOf files (some "latest.log")
    let afterLatest : Except String (List String × List String) :=
      if latestLogIndex > -1 then
        match rmSync entries "latest.log" with
        | .error code => .error code
        | .ok entries1 => .ok (splice files latestLogIndex, entries1)
      else .ok (files, entries)
    match afterLatest with
    | .error code => some (.threw code, w)
    | .ok (files1, entries1) =>
      if maxSavedLogs > 0 ∧ (files1.length : Int) ≥ maxSavedLogs then
        match pruneLoop maxSavedLogs (files1.length + 1)
            { entries := entries1
              files := files1
              fileNamesTimestamps := collectTimestamps parseDate files1
              oldLogsDeleted := w.oldLogsDeleted } with
        | none => none
        | some (outcome, s) =>
          some (outcome, { w with dir := .ok s.entries, oldLogsDeleted := s.oldLogsDeleted })
      else
        some (.returned, { w with dir := .ok entries1 })

/-! ## A concrete date parser: the full ECMAScript date-time format -/

/-- The value of a decimal digit. -/
def digit (c : Char) : Option Nat :=
  if '0' ≤ c ∧ c ≤ '9' then some (c.toNat - 48) else none

/-- The value of a run of decimal digits. -/
def digits (cs : List Char) : Option Nat :=
  cs.foldl (fun acc c => acc.bind (fun n => (digit c).map (fun d => 10 * n + d))) (some 0)

/-- Days in a month of the proleptic Gregorian calendar. -/
def daysInMonth (y m : Nat) : Nat :=
  if m = 2 then (if (y % 4 = 0 ∧ y % 100 ≠ 0) ∨ y % 400 = 0 then 29 else 28)
  else if m = 4 ∨ m = 6 ∨ m = 9 ∨ m = 11 then 30 else 31

/-- Days from 1970-01-01 to the given civil date. -/
def daysFromCivil (y m d : Nat) : Int :=
  let y1 : Int := if m ≤ 2 then (y : Int) - 1 else y
  let era : Int := y1 / 400
  let yoe : Int := y1 - era * 400
  let mp : Int := ((m : Int) + 9) % 12
  let doy : Int := (153 * mp + 2) / 5 + (d : Int) - 1
  let doe : Int := yoe * 365 + yoe / 4 - yoe / 100 + doy
  era * 146097 + doe - 719468

/-- The time value, in milliseconds since the epoch, of a text of the exact form
`YYYY-MM-DDTHH:mm:ss.sssZ` that `Date.prototype.toISOString` produces; `none` for every other
text. -/
def isoDateParse (text : String) : Option Int :=
  match text.data with
  | [y1, y2, y3, y4, '-', m1, m2, '-', d1, d2, 'T', h1, h2, ':', n1, n2, ':', s1, s2, '.',
      f1, f2, f3, 'Z'] =>
    match digits [y1, y2, y3, y4], digits [m1, m2], digits [d1, d2], digits [h1, h2],
        digits [n1, n2], digits [s1, s2], digits [f1, f2, f3] with
    | some y, some m, some d, some h, some n, some s, some f =>
      if 1 ≤ m ∧ m ≤ 12 ∧ 1 ≤ d ∧ d ≤ daysInMonth y m ∧ h ≤ 23 ∧ n ≤ 59 ∧ s ≤ 59 then
        some (daysFromCivil y m d * 86400000 + ((h * 3600 + n * 60 + s) * 1000 + f : Nat))
      else none
    | _, _, _, _, _, _, _ => none
  | _ => none

/-! ## Vocabulary of the statements -/

/-- An archival log file: a name that ends in `.log` and is not `latest.log`. -/
def isArchival (fileName : String) : Bool :=
  endsWithLog fileName && fileName != "latest.log"

/-- The archival log files of a directory. -/
def archival (entries : List String) : List String :=
  entries.filter isArchival

/-- The timestamp that `prepareLogDir` reads off a file name, `none` when the date is invalid. -/
def fileTimestamp (parseDate : String → Option Int) (fileName : String) : Option Int :=
  parseDate (timestampText fileName)

/-- The tracked array `files` when the loop is reached: the `.log` entries without
`latest.log`. -/
def trackedFiles (entries : List String) : List String :=
  if "latest.log" ∈ entries then (entries.filter endsWithLog).erase "latest.log"
  else entries.filter endsWithLog

/-- The directory after lines 22-27. -/
def afterLatest (entries : List String) : List String :=
  if "latest.log" ∈ entries then entries.erase "latest.log" else entries

/-- The archival files of the directory `before` that are no longer in `after`. -/
def deletedFiles (before after : List String) : List String :=
  (archival before).filter (fun f => decide (f ∉ after))

/-- The loop variables when the loop is reached on a directory without repeated names. -/
def loopStart (parseDate : String → Option Int) (entries : List String) (c : Nat) : LoopState :=
  { entries := afterLatest entries
    files := archival entries
    fileNamesTimestamps := collectTimestamps parseDate (archival entries)
    oldLogsDeleted := c }

/-- The number of distinct timestamps among the archival files whose names parse. -/
def distinctTimestamps (parseDate : String → Option Int) (entries : List String) : Nat :=
  (((archival entries).filterMap (fileTimestamp parseDate)).dedup).length

/-- The directory of the worked example of the specification. -/
def exampleDir : List String :=
  ["2023-01-01T00-00-00.000Z.log", "2023-01-02T00-00-00.000Z.log",
    "2023-01-03T00-00-00.000Z.log", "latest.log"]

/-- The shape of a text in which every `:` occurs after the last `T` (a `T` before it, none
after it) and every `-` occurs before the last `T` (a `T` after it); `seenT` tells whether a `T`
has been passed already. -/
def shapeFrom (seenT : Bool) : List Char → Bool
  | [] => true
  | c :: rest =>
    (if c == ':' then seenT && !rest.contains 'T'
      else if c == '-' then rest.contains 'T' else true) &&
      shapeFrom (seenT || c == 'T') rest

/-- Every `:` of the text occurs after the last `T` and every `-` before the last `T`. -/
def claimedShape (s : String) : Bool :=
  shapeFrom false s.data

/-- No line terminator occurs in the text. -/
def singleLine (s : String) : Bool :=
  s.data.all (fun c => !isLineTerminator c)

/-- Every `:` of the text has no `T` behind it on its line and every `-` has one. -/
def decodable : List Char → Bool
  | [] => true
  | c :: rest =>
    (if c == ':' then !matchesDotStarT rest
      else if c == '-' then matchesDotStarT rest else true) &&
      decodable rest

/-- What the loop relies on: the tracked files are files of a directory without repeated names,
and the map sends distinct keys to distinct tracked files. -/
structure LoopInv (s : LoopState) : Prop where
  entries_nodup : s.entries.Nodup
  files_nodup : s.files.Nodup
  files_sub : ∀ f ∈ s.files, f ∈ s.entries
  keys_nodup : (s.fileNamesTimestamps.map Prod.fst).Nodup
  vals_nodup : (s.fileNamesTimestamps.map Prod.snd).Nodup
  vals_sub : ∀ q ∈ s.fileNamesTimestamps, q.2 ∈ s.files

/-- What a run of the loop from `s` that ends in `s'` with outcome `out` has done, in terms of the
map entries `del` it has consumed. -/
structure PruneSpec (M : Int) (s : LoopState) (del : List (Int × String)) (out : Outcome)
    (s' : LoopState) : Prop where
  del_sub : ∀ q ∈ del, q ∈ s.fileNamesTimestamps
  entries_eq : s'.entries = s.entries.filter (fun x => decide (x ∉ del.map Prod.snd))
  files_eq : s'.files = s.files.filter (fun x => decide (x ∉ del.map Prod.snd))
  map_mem : ∀ q, q ∈ s'.fileNamesTimestamps ↔ q ∈ s.fileNamesTimestamps ∧ q ∉ del
  count_eq : s'.oldLogsDeleted = s.oldLogsDeleted + del.length
  files_len : s'.files.length + del.length = s.files.length
  map_len : s'.fileNamesTimestamps.length + del.length = s.fileNamesTimestamps.length
  older : ∀ q ∈ del, ∀ q' ∈ s'.fileNamesTimestamps, q.1 < q'.1
  ending :
    (out = .returned ∧ (s'.files.length : Int) < M ∧
        (del = [] ∨ (s'.files.length : Int) + 1 = M)) ∨
      (out = .threw "ENOENT" ∧ s'.fileNamesTimestamps = [] ∧ M ≤ (s'.files.length : Int))


/-! ## Arrays: `indexOf` and `splice` -/

theorem splice_neg_one (xs : List String) : splice xs (-1) = xs.dropLast := by
  cases xs with
  | nil => rfl
  | cons x rest =>
    have h : ((-1 : Int) < 0) := by decide
    simp only [splice, h, if_true]
    have h2 : (max (((x :: rest).length : Int) + -1) 0).toNat + 1 = (x :: rest).length := by
      simp only [List.length_cons]
      omega
    exact (List.dropLast_eq_eraseIdx h2).symm

theorem splice_indexOf_of_mem {xs : List String} {x : String} (h : x ∈ xs) :
    splice xs (indexOf xs (some x)) = xs.erase x := by
  have hlt : List.indexOf x xs < xs.length := List.indexOf_lt_length.2 h
  simp only [splice, indexOf, h, if_true]
  have h1 : ¬ ((List.indexOf x xs : Int) < 0) := by omega
  have h2 : (min (List.indexOf x xs : Int) (xs.length : Int)).toNat = List.indexOf x xs := by omega
  rw [if_neg h1, h2]
  exact List.eraseIdx_indexOf_eq_erase x xs

theorem indexOf_of_not_mem {xs : List String} {x : String} (h : x ∉ xs) :
    indexOf xs (some x) = -1 := by
  simp [indexOf, h]

theorem indexOf_gt_iff (xs : List String) (x : String) :
    indexOf xs (some x) > -1 ↔ x ∈ xs := by
  by_cases h : x ∈ xs
  · simp only [indexOf, h, if_true, iff_true]
    omega
  · simp [indexOf, h]

theorem length_splice_indexOf (xs : List String) (o : Option String) :
    (splice xs (indexOf xs o)).length = xs.length - 1 := by
  cases o with
  | none => simp [indexOf, splice_neg_one]
  | some x =>
    by_cases h : x ∈ xs
    · rw [splice_indexOf_of_mem h, List.length_erase_of_mem h]
    · rw [indexOf_of_not_mem h, splice_neg_one, List.length_dropLast]


/-! ## The map -/

theorem mapGet_mem {m : TimestampMap} {k : Option Int} {f : String} (h : mapGet m k = some f) :
    f ∈ m.map Prod.snd := by
  cases k with
  | none => simp [mapGet] at h
  | some k =>
    simp only [mapGet, Option.map_eq_some'] at h
    obtain ⟨p, hp, rfl⟩ := h
    exact List.mem_map_of_mem _ (List.mem_of_find?_eq_some hp)

theorem mapDelete_subset {m : TimestampMap} {k : Option Int} {p : Int × String}
    (h : p ∈ mapDelete m k) : p ∈ m := by
  cases k with
  | none => exact h
  | some k => exact (List.mem_filter.1 h).1

/-! ## The loop: termination and frame -/

theorem pruneLoop_succ (M : Int) (fuel : Nat) (s : LoopState) :
    pruneLoop M (fuel + 1) s =
      if (s.files.length : Int) ≥ M then
        match rmSync s.entries
            (display (mapGet s.fileNamesTimestamps
              (mathMin (s.fileNamesTimestamps.map Prod.fst)))) with
        | .error code => some (.threw code, s)
        | .ok entries =>
          pruneLoop M fuel
            { entries := entries
              files := splice s.files (indexOf s.files (mapGet s.fileNamesTimestamps
                (mathMin (s.fileNamesTimestamps.map Prod.fst))))
              fileNamesTimestamps := mapDelete s.fileNamesTimestamps
                (mathMin (s.fileNamesTimestamps.map Prod.fst))
              oldLogsDeleted := s.oldLogsDeleted + 1 }
      else some (.returned, s) := rfl

theorem pruneLoop_isSome {M : Int} (hM : 1 ≤ M) :
    ∀ (fuel : Nat) (s : LoopState), s.files.length < fuel → ∃ r, pruneLoop M fuel s = some r := by
  intro fuel
  induction fuel with
  | zero => intro s h; omega
  | succ fuel ih =>
    intro s h
    rw [pruneLoop_succ]
    split
    · rename_i hge
      split
      · exact ⟨_, rfl⟩
      · apply ih
        simp only [length_splice_indexOf]
        omega
    · exact ⟨_, rfl⟩

theorem pruneLoop_entries_sublist {M : Int} :
    ∀ (fuel : Nat) (s : LoopState) (r : Outcome × LoopState),
      pruneLoop M fuel s = some r → r.2.entries.Sublist s.entries := by
  intro fuel
  induction fuel with
  | zero => intro s r h; simp [pruneLoop] at h
  | succ fuel ih =>
    intro s r h
    rw [pruneLoop_succ] at h
    split at h
    · split at h
      · cases h; exact List.Sublist.refl _
      · rename_i entries hrm
        have h1 := ih _ _ h
        simp only [rmSync] at hrm
        split at hrm
        · cases hrm
          exact h1.trans (List.erase_sublist _ _)
        · cases hrm
    · cases h; exact List.Sublist.refl _

theorem pruneLoop_keeps {M : Int} :
    ∀ (fuel : Nat) (s : LoopState) (r : Outcome × LoopState),
      pruneLoop M fuel s = some r →
      ∀ x ∈ s.entries, x ≠ "undefined" → x ∉ s.fileNamesTimestamps.map Prod.snd →
        x ∈ r.2.entries := by
  intro fuel
  induction fuel with
  | zero => intro s r h; simp [pruneLoop] at h
  | succ fuel ih =>
    intro s r h x hx hund hval
    rw [pruneLoop_succ] at h
    split at h
    · split at h
      · cases h; exact hx
      · rename_i entries hrm
        simp only [rmSync] at hrm
        split at hrm
        · cases hrm
          apply ih _ _ h x
          · apply (List.mem_erase_of_ne _).2 hx
            intro heq
            cases hget : mapGet s.fileNamesTimestamps
                (mathMin (s.fileNamesTimestamps.map Prod.fst)) with
            | none => rw [hget] at heq; exact hund heq
            | some f =>
              rw [hget] at heq
              exact hval (heq ▸ mapGet_mem hget)
          · exact hund
          · intro hmem
            obtain ⟨p, hp, hpx⟩ := List.mem_map.1 hmem
            exact hval (List.mem_map.2 ⟨p, mapDelete_subset hp, hpx⟩)
        · cases hrm
    · cases h; exact hx

/-- The fuel handed to the loop is always enough: `prepareLogDir` yields a result for every
threshold, date parser and world. -/
theorem prepareLogDir_total (M : Int) (parseDate : String → Option Int) (w : World) :
    ∃ r, prepareLogDir M parseDate w = some r := by
  unfold prepareLogDir
  split
  · split
    · split <;> exact ⟨_, rfl⟩
    · exact ⟨_, rfl⟩
  · dsimp only
    split
    · exact ⟨_, rfl⟩
    · split
      · rename_i hcond
        obtain ⟨r, hr⟩ := pruneLoop_isSome (M := M) (by omega) (_ + 1)
          { entries := _, files := _, fileNamesTimestamps := collectTimestamps parseDate _,
            oldLogsDeleted := w.oldLogsDeleted } (Nat.lt_succ_self _)
        rw [hr]
        exact ⟨_, rfl⟩
      · exact ⟨_, rfl⟩


/-! ## Building the map -/

theorem mapSet_keys (m : TimestampMap) (k : Int) (v : String) :
    (mapSet m k v).map Prod.fst =
      if k ∈ m.map Prod.fst then m.map Prod.fst else m.map Prod.fst ++ [k] := by
  induction m with
  | nil => simp [mapSet]
  | cons q rest ih =>
    obtain ⟨k', v'⟩ := q
    by_cases h : k' = k
    · subst h
      simp [mapSet]
    · have h' : ¬ k = k' := fun e => h e.symm
      simp only [mapSet, h, if_false, List.map_cons, ih, List.mem_cons, h', false_or]
      split <;> simp

theorem mapSet_mem {m : TimestampMap} {k : Int} {v : String} {q : Int × String}
    (h : q ∈ mapSet m k v) : q = (k, v) ∨ q ∈ m := by
  induction m with
  | nil => simpa [mapSet] using h
  | cons q' rest ih =>
    obtain ⟨k', v'⟩ := q'
    by_cases hk : k' = k
    · simp only [mapSet, hk, if_true, List.mem_cons] at h
      rcases h with h | h
      · exact Or.inl h
      · exact Or.inr (List.mem_cons_of_mem _ h)
    · simp only [mapSet, hk, if_false, List.mem_cons] at h
      rcases h with h | h
      · exact Or.inr (h ▸ List.mem_cons_self _ _)
      · rcases ih h with h2 | h2
        · exact Or.inl h2
        · exact Or.inr (List.mem_cons_of_mem _ h2)

theorem mapSet_keys_nodup {m : TimestampMap} (k : Int) (v : String)
    (h : (m.map Prod.fst).Nodup) : ((mapSet m k v).map Prod.fst).Nodup := by
  rw [mapSet_keys]
  split
  · exact h
  · rename_i hk
    exact List.Nodup.append h (List.nodup_singleton k) (by
      intro a ha hb
      rw [List.mem_singleton] at hb
      exact hk (hb ▸ ha))

theorem mapSet_key_mem (m : TimestampMap) (k : Int) (v : String) (t : Int) :
    t ∈ (mapSet m k v).map Prod.fst ↔ t = k ∨ t ∈ m.map Prod.fst := by
  rw [mapSet_keys]
  split
  · rename_i hk
    constructor
    · exact Or.inr
    · rintro (h | h)
      · exact h ▸ hk
      · exact h
  · rw [List.mem_append, List.mem_singleton]
    exact Or.comm

theorem collectTimestamps_snoc (parseDate : String → Option Int) (files : List String)
    (f : String) :
    collectTimestamps parseDate (files ++ [f]) =
      match parseDate (timestampText f) with
      | none => collectTimestamps parseDate files
      | some t => mapSet (collectTimestamps parseDate files) t f := by
  simp [collectTimestamps, List.foldl_append]

theorem collectTimestamps_mem (parseDate : String → Option Int) (files : List String) :
    ∀ q ∈ collectTimestamps parseDate files,
      q.2 ∈ files ∧ fileTimestamp parseDate q.2 = some q.1 := by
  induction files using List.reverseRecOn with
  | nil => intro q hq; simp [collectTimestamps] at hq
  | append_singleton files f ih =>
    intro q hq
    rw [collectTimestamps_snoc] at hq
    cases hts : parseDate (timestampText f) with
    | none =>
      rw [hts] at hq
      exact ⟨List.mem_append_left _ (ih q hq).1, (ih q hq).2⟩
    | some t =>
      rw [hts] at hq
      rcases mapSet_mem hq with h | h
      · subst h
        exact ⟨by simp, hts⟩
      · exact ⟨List.mem_append_left _ (ih q h).1, (ih q h).2⟩

theorem collectTimestamps_keys_nodup (parseDate : String → Option Int) (files : List String) :
    ((collectTimestamps parseDate files).map Prod.fst).Nodup := by
  induction files using List.reverseRecOn with
  | nil => simp [collectTimestamps]
  | append_singleton files f ih =>
    rw [collectTimestamps_snoc]
    cases hts : parseDate (timestampText f) with
    | none => exact ih
    | some t => exact mapSet_keys_nodup t f ih

theorem collectTimestamps_key_mem (parseDate : String → Option Int) (files : List String)
    (t : Int) :
    t ∈ (collectTimestamps parseDate files).map Prod.fst ↔
      ∃ f ∈ files, fileTimestamp parseDate f = some t := by
  induction files using List.reverseRecOn with
  | nil => simp [collectTimestamps]
  | append_singleton files f ih =>
    rw [collectTimestamps_snoc]
    cases hts : parseDate (timestampText f) with
    | none =>
      simp only [ih, List.mem_append, List.mem_singleton]
      constructor
      · rintro ⟨g, hg, h⟩
        exact ⟨g, Or.inl hg, h⟩
      · rintro ⟨g, hg | hg, h⟩
        · exact ⟨g, hg, h⟩
        · subst hg
          simp [fileTimestamp, hts] at h
    | some t' =>
      simp only [mapSet_key_mem, ih, List.mem_append, List.mem_singleton]
      constructor
      · rintro (h | ⟨g, hg, h⟩)
        · exact ⟨f, Or.inr rfl, by rw [h]; exact hts⟩
        · exact ⟨g, Or.inl hg, h⟩
      · rintro ⟨g, hg | hg, h⟩
        · exact Or.inr ⟨g, hg, h⟩
        · subst hg
          simp only [fileTimestamp, hts, Option.some.injEq] at h
          exact Or.inl h.symm

theorem keys_unique {m : TimestampMap} (h : (m.map Prod.fst).Nodup) {q q' : Int × String}
    (hq : q ∈ m) (hq' : q' ∈ m) (hk : q.1 = q'.1) : q = q' :=
  List.inj_on_of_nodup_map h hq hq' hk

theorem collectTimestamps_vals_nodup (parseDate : String → Option Int) (files : List String) :
    ((collectTimestamps parseDate files).map Prod.snd).Nodup := by
  have hk := collectTimestamps_keys_nodup parseDate files
  refine List.Nodup.map_on ?_ (List.Nodup.of_map _ hk)
  intro q hq q' hq' hv
  apply keys_unique hk hq hq'
  have h1 := (collectTimestamps_mem parseDate files q hq).2
  have h2 := (collectTimestamps_mem parseDate files q' hq').2
  rw [hv, h2] at h1
  exact (Option.some.inj h1).symm

/-! ## Selecting the oldest entry -/

theorem mathMin_spec {l : List Int} (h : l ≠ []) :
    ∃ t, mathMin l = some t ∧ t ∈ l ∧ ∀ k ∈ l, t ≤ k := by
  induction l with
  | nil => exact absurd rfl h
  | cons k rest ih =>
    cases rest with
    | nil => exact ⟨k, rfl, by simp, by simp⟩
    | cons k2 rest2 =>
      obtain ⟨t, ht, hmem, hle⟩ := ih (by simp)
      refine ⟨min k t, by simp only [mathMin] at ht ⊢; rw [ht], ?_, ?_⟩
      · rcases min_choice k t with h1 | h1
        · rw [h1]; exact List.mem_cons_self _ _
        · rw [h1]; exact List.mem_cons_of_mem _ hmem
      · intro x hx
        rcases List.mem_cons.1 hx with h1 | h1
        · rw [h1]; exact min_le_left _ _
        · exact le_trans (min_le_right _ _) (hle x h1)

theorem mapGet_of_key_mem {m : TimestampMap} {t : Int} (h : t ∈ m.map Prod.fst) :
    ∃ f, mapGet m (some t) = some f ∧ (t, f) ∈ m := by
  cases hf : m.find? (fun p => p.1 == t) with
  | none =>
    exfalso
    obtain ⟨q, hq, hqt⟩ := List.mem_map.1 h
    have := List.find?_eq_none.1 hf q hq
    simp [hqt] at this
  | some q =>
    have h1 := List.find?_some hf
    have h2 := List.mem_of_find?_eq_some hf
    simp only [beq_iff_eq] at h1
    refine ⟨q.2, by simp [mapGet, hf], ?_⟩
    rw [← h1]
    exact h2

theorem mapDelete_eq_erase {m : TimestampMap} (hk : (m.map Prod.fst).Nodup) {t : Int}
    {f : String} (h : (t, f) ∈ m) : mapDelete m (some t) = m.erase (t, f) := by
  rw [List.Nodup.erase_eq_filter (List.Nodup.of_map _ hk)]
  simp only [mapDelete]
  apply List.filter_congr
  intro q hq
  by_cases hqt : q.1 = t
  · have : q = (t, f) := keys_unique hk hq h hqt
    simp [this]
  · have : q ≠ (t, f) := fun e => hqt (by rw [e])
    rw [bne_iff_ne.2 hqt, bne_iff_ne.2 this]


/-! ## The loop on a well-formed directory -/

theorem pruneLoop_step {s : LoopState} (inv : LoopInv s) (hne : s.fileNamesTimestamps ≠ []) :
    ∃ t f, (t, f) ∈ s.fileNamesTimestamps ∧ (∀ q ∈ s.fileNamesTimestamps, t ≤ q.1) ∧
      mathMin (s.fileNamesTimestamps.map Prod.fst) = some t ∧
      mapGet s.fileNamesTimestamps (some t) = some f ∧
      rmSync s.entries f = .ok (s.entries.erase f) ∧
      splice s.files (indexOf s.files (some f)) = s.files.erase f ∧
      mapDelete s.fileNamesTimestamps (some t) = s.fileNamesTimestamps.erase (t, f) := by
  obtain ⟨t, ht, htmem, htle⟩ :=
    mathMin_spec (l := s.fileNamesTimestamps.map Prod.fst) (by simpa using hne)
  obtain ⟨f, hf, hmem⟩ := mapGet_of_key_mem htmem
  have hfiles : f ∈ s.files := inv.vals_sub _ hmem
  refine ⟨t, f, hmem, ?_, ht, hf, ?_, splice_indexOf_of_mem hfiles,
    mapDelete_eq_erase inv.keys_nodup hmem⟩
  · intro q hq
    exact htle _ (List.mem_map_of_mem _ hq)
  · simp [rmSync, inv.files_sub f hfiles]

theorem loopInv_step {s : LoopState} (inv : LoopInv s) {t : Int} {f : String}
    (hmem : (t, f) ∈ s.fileNamesTimestamps) (c : Nat) :
    LoopInv
      { entries := s.entries.erase f
        files := s.files.erase f
        fileNamesTimestamps := s.fileNamesTimestamps.erase (t, f)
        oldLogsDeleted := c } where
  entries_nodup := inv.entries_nodup.erase f
  files_nodup := inv.files_nodup.erase f
  files_sub := by
    intro g hg
    have h := (List.Nodup.mem_erase_iff inv.files_nodup).1 hg
    exact (List.mem_erase_of_ne h.1).2 (inv.files_sub g h.2)
  keys_nodup := (inv.keys_nodup.sublist ((List.erase_sublist _ _).map Prod.fst))
  vals_nodup := (inv.vals_nodup.sublist ((List.erase_sublist _ _).map Prod.snd))
  vals_sub := by
    intro q hq
    have hm : (s.fileNamesTimestamps).Nodup := List.Nodup.of_map _ inv.keys_nodup
    have h := (List.Nodup.mem_erase_iff hm).1 hq
    refine (List.mem_erase_of_ne ?_).2 (inv.vals_sub q h.2)
    intro hv
    exact h.1 (List.inj_on_of_nodup_map inv.vals_nodup h.2 hmem hv)

theorem filter_not_mem_cons {α : Type} [DecidableEq α] (l : List α) (a : α) (del : List α)
    (hl : l.Nodup) :
    (l.erase a).filter (fun x => decide (x ∉ del)) =
      l.filter (fun x => decide (x ∉ a :: del)) := by
  rw [List.Nodup.erase_eq_filter hl, List.filter_filter]
  apply List.filter_congr
  intro x _
  by_cases h1 : x = a <;> by_cases h2 : x ∈ del <;> simp [h1, h2]

theorem pruneLoop_spec {M : Int} :
    ∀ (fuel : Nat) (s : LoopState), LoopInv s → s.files.length < fuel →
      ("undefined" ∈ s.entries →
        (s.files.length : Int) < M + s.fileNamesTimestamps.length) →
      ∃ del out s', pruneLoop M fuel s = some (out, s') ∧ PruneSpec M s del out s' := by
  intro fuel
  induction fuel with
  | zero => intro s _ h; omega
  | succ fuel ih =>
    intro s inv hfuel hU
    rw [pruneLoop_succ]
    by_cases hge : (s.files.length : Int) ≥ M
    · rw [if_pos hge]
      by_cases hne : s.fileNamesTimestamps = []
      · have hund : "undefined" ∉ s.entries := by
          intro hmem
          have := hU hmem
          rw [hne] at this
          simp only [List.length_nil] at this
          omega
        refine ⟨[], .threw "ENOENT", s, ?_, ?_⟩
        · simp [hne, mathMin, mapGet, display, rmSync, hund]
        · exact
            { del_sub := by simp
              entries_eq := by simp
              files_eq := by simp
              map_mem := by simp
              count_eq := by simp
              files_len := by simp
              map_len := by simp
              older := by simp
              ending := Or.inr ⟨rfl, hne, hge⟩ }
      · obtain ⟨t, f, hmem, hle, hmin, hget, hrm, hspl, hdel⟩ := pruneLoop_step inv hne
        have hfiles : f ∈ s.files := inv.vals_sub _ hmem
        have hmnd : (s.fileNamesTimestamps).Nodup := List.Nodup.of_map _ inv.keys_nodup
        rw [hmin, hget]
        simp only [display, hrm, hspl, hdel]
        have inv1 := loopInv_step inv hmem (s.oldLogsDeleted + 1)
        have hlenf : (s.files.erase f).length + 1 = s.files.length := by
          have hpos : 0 < s.files.length := List.length_pos_of_mem hfiles
          rw [List.length_erase_of_mem hfiles]
          omega
        have hlenm : (s.fileNamesTimestamps.erase (t, f)).length + 1 =
            s.fileNamesTimestamps.length := by
          have hpos : 0 < s.fileNamesTimestamps.length := List.length_pos_of_mem hmem
          rw [List.length_erase_of_mem hmem]
          omega
        obtain ⟨del, out, s', hrun, spec⟩ := ih _ inv1 (by
          simp only [List.length_erase_of_mem hfiles]
          omega) (by
          intro hmem1
          have := hU (List.mem_of_mem_erase hmem1)
          simp only at hlenf hlenm ⊢
          omega)
        refine ⟨(t, f) :: del, out, s', hrun, ?_⟩
        exact
          { del_sub := by
              intro q hq
              rcases List.mem_cons.1 hq with h | h
              · exact h ▸ hmem
              · exact List.mem_of_mem_erase (spec.del_sub q h)
            entries_eq := by
              rw [spec.entries_eq]
              exact filter_not_mem_cons s.entries f (del.map Prod.snd) inv.entries_nodup
            files_eq := by
              rw [spec.files_eq]
              exact filter_not_mem_cons s.files f (del.map Prod.snd) inv.files_nodup
            map_mem := by
              intro q
              rw [spec.map_mem q]
              simp only [List.Nodup.mem_erase_iff hmnd, List.mem_cons, not_or]
              tauto
            count_eq := by
              rw [spec.count_eq]
              simp only [List.length_cons]
              omega
            files_len := by
              have := spec.files_len
              simp only [List.length_cons] at this ⊢
              omega
            map_len := by
              have := spec.map_len
              simp only [List.length_cons] at this ⊢
              omega
            older := by
              intro q hq q' hq'
              have hq'1 := (spec.map_mem q').1 hq'
              have hq'2 := (List.Nodup.mem_erase_iff hmnd).1 hq'1.1
              rcases List.mem_cons.1 hq with h | h
              · subst h
                have h1 : t ≤ q'.1 := hle q' hq'2.2
                have h2 : t ≠ q'.1 := fun e =>
                  hq'2.1 (keys_unique inv.keys_nodup hq'2.2 hmem e.symm)
                exact lt_of_le_of_ne h1 h2
              · exact spec.older q h q' hq'
            ending := by
              have hfl := spec.files_len
              rcases spec.ending with ⟨h1, h2, h3⟩ | ⟨h1, h2, h3⟩
              · refine Or.inl ⟨h1, h2, Or.inr ?_⟩
                rcases h3 with h3 | h3
                · subst h3
                  simp only [List.length_nil] at hfl
                  omega
                · exact h3
              · exact Or.inr ⟨h1, h2, h3⟩ }
    · rw [if_neg hge]
      refine ⟨[], .returned, s, rfl, ?_⟩
      exact
        { del_sub := by simp
          entries_eq := by simp
          files_eq := by simp
          map_mem := by simp
          count_eq := by simp
          files_len := by simp
          map_len := by simp
          older := by simp
          ending := Or.inl ⟨rfl, by omega, Or.inl rfl⟩ }


/-! ## `prepareLogDir` on an existing directory -/

theorem endsWithLog_latest : endsWithLog "latest.log" = true := by decide

theorem endsWithLog_undefined : endsWithLog "undefined" = false := by decide

theorem isArchival_latest : isArchival "latest.log" = false := by decide

theorem prepareLogDir_ok {e : Option String}
    (M : Int) (parseDate : String → Option Int) (es : List String)
    (c : Nat) :
    prepareLogDir M parseDate { mkdirError := e, dir := .ok es, oldLogsDeleted := c } =
      if M > 0 ∧ ((trackedFiles es).length : Int) ≥ M then
        match pruneLoop M ((trackedFiles es).length + 1)
            { entries := afterLatest es
              files := trackedFiles es
              fileNamesTimestamps := collectTimestamps parseDate (trackedFiles es)
              oldLogsDeleted := c } with
        | none => none
        | some (outcome, s) =>
          some (outcome, { mkdirError := e, dir := .ok s.entries, oldLogsDeleted := s.oldLogsDeleted })
      else some (.returned, { mkdirError := e, dir := .ok (afterLatest es), oldLogsDeleted := c }) := by
  by_cases h : "latest.log" ∈ es
  · have h1 : "latest.log" ∈ es.filter endsWithLog :=
      List.mem_filter.2 ⟨h, endsWithLog_latest⟩
    have h2 : indexOf (es.filter endsWithLog) (some "latest.log") > -1 :=
      (indexOf_gt_iff _ _).2 h1
    simp only [prepareLogDir, trackedFiles, afterLatest, h, h2, if_true, rmSync,
      splice_indexOf_of_mem h1]
  · have h1 : "latest.log" ∉ es.filter endsWithLog := fun hm => h (List.mem_filter.1 hm).1
    have h2 : ¬ indexOf (es.filter endsWithLog) (some "latest.log") > -1 :=
      fun hgt => h1 ((indexOf_gt_iff _ _).1 hgt)
    simp only [prepareLogDir, trackedFiles, afterLatest, h, h2, if_false]

theorem afterLatest_sublist (es : List String) : (afterLatest es).Sublist es := by
  unfold afterLatest
  split
  · exact List.erase_sublist _ _
  · exact List.Sublist.refl _

theorem mem_afterLatest {es : List String} {x : String} (hx : x ∈ es) (hne : x ≠ "latest.log") :
    x ∈ afterLatest es := by
  unfold afterLatest
  split
  · exact (List.mem_erase_of_ne hne).2 hx
  · exact hx

theorem latest_not_mem_afterLatest {es : List String} (hnd : es.Nodup) :
    "latest.log" ∉ afterLatest es := by
  unfold afterLatest
  split
  · exact fun h => ((List.Nodup.mem_erase_iff hnd).1 h).1 rfl
  · assumption

theorem trackedFiles_mem {es : List String} {f : String} (h : f ∈ trackedFiles es) :
    f ∈ es ∧ endsWithLog f = true := by
  unfold trackedFiles at h
  split at h
  · exact List.mem_filter.1 (List.mem_of_mem_erase h)
  · exact List.mem_filter.1 h

theorem filter_erase_of_false {α : Type} [DecidableEq α] (p : α → Bool) (a : α)
    (ha : p a = false) (l : List α) : (l.erase a).filter p = l.filter p := by
  induction l with
  | nil => rfl
  | cons x rest ih =>
    by_cases hx : x = a
    · subst hx
      simp [ha]
    · have hb : (x == a) = false := beq_false_of_ne hx
      rw [List.erase_cons, hb]
      simp only [Bool.false_eq_true, if_false, List.filter_cons, ih]

theorem archival_afterLatest (es : List String) : archival (afterLatest es) = archival es := by
  unfold afterLatest archival
  split
  · exact filter_erase_of_false _ _ isArchival_latest _
  · rfl

theorem trackedFiles_eq_archival {es : List String} (hnd : es.Nodup) :
    trackedFiles es = archival es := by
  unfold trackedFiles archival
  split
  · rw [List.Nodup.erase_eq_filter (hnd.filter _), List.filter_filter]
    apply List.filter_congr
    intro x _
    simp only [isArchival, Bool.and_comm]
  · rename_i h
    apply List.filter_congr
    intro x hx
    have : x ≠ "latest.log" := fun e => h (e ▸ hx)
    simp [isArchival, this]


theorem same_length_of_nodup {α : Type} {l₁ l₂ : List α} (d₁ : l₁.Nodup) (d₂ : l₂.Nodup)
    (h : ∀ a, a ∈ l₁ ↔ a ∈ l₂) : l₁.length = l₂.length :=
  ((List.perm_ext_iff_of_nodup d₁ d₂).2 h).length_eq

theorem ne_latest_of_isArchival {f : String} (h : isArchival f = true) : f ≠ "latest.log" := by
  intro e
  rw [e, isArchival_latest] at h
  exact Bool.false_ne_true h

theorem mem_archival {es : List String} {f : String} :
    f ∈ archival es ↔ f ∈ es ∧ isArchival f = true := List.mem_filter

theorem loopStart_inv (parseDate : String → Option Int) {es : List String} (hnd : es.Nodup)
    (c : Nat) : LoopInv (loopStart parseDate es c) where
  entries_nodup := hnd.sublist (afterLatest_sublist es)
  files_nodup := hnd.filter _
  files_sub := by
    intro f hf
    have h := mem_archival.1 hf
    exact mem_afterLatest h.1 (ne_latest_of_isArchival h.2)
  keys_nodup := collectTimestamps_keys_nodup _ _
  vals_nodup := collectTimestamps_vals_nodup _ _
  vals_sub := fun q hq => (collectTimestamps_mem _ _ q hq).1

theorem prepareLogDir_skipped {e : Option String}
    {M : Int} (parseDate : String → Option Int) {es : List String}
    (c : Nat) (hnd : es.Nodup) (h : ¬ (0 < M ∧ M ≤ ((archival es).length : Int))) :
    prepareLogDir M parseDate { mkdirError := e, dir := .ok es, oldLogsDeleted := c } =
      some (.returned, { mkdirError := e, dir := .ok (afterLatest es), oldLogsDeleted := c }) := by
  rw [prepareLogDir_ok, trackedFiles_eq_archival hnd, if_neg]
  exact h

theorem prepareLogDir_pruned {e : Option String}
    {M : Int} (parseDate : String → Option Int) {es : List String}
    (c : Nat) (hnd : es.Nodup) (hM : 0 < M) (hN : M ≤ ((archival es).length : Int))
    (hU : "undefined" ∈ es → ((archival es).length : Int) <
      M + (collectTimestamps parseDate (archival es)).length) :
    ∃ del out s',
      prepareLogDir M parseDate { mkdirError := e, dir := .ok es, oldLogsDeleted := c } =
        some (out, { mkdirError := e, dir := .ok s'.entries, oldLogsDeleted := s'.oldLogsDeleted }) ∧
      PruneSpec M (loopStart parseDate es c) del out s' := by
  obtain ⟨del, out, s', hrun, spec⟩ :=
    pruneLoop_spec (M := M) ((archival es).length + 1) (loopStart parseDate es c)
      (loopStart_inv parseDate hnd c) (Nat.lt_succ_self _)
      (fun h => hU ((afterLatest_sublist es).subset h))
  refine ⟨del, out, s', ?_, spec⟩
  rw [prepareLogDir_ok, trackedFiles_eq_archival hnd, if_pos ⟨hM, hN⟩]
  have hrun' : pruneLoop M ((archival es).length + 1)
      { entries := afterLatest es
        files := archival es
        fileNamesTimestamps := collectTimestamps parseDate (archival es)
        oldLogsDeleted := c } = some (out, s') := hrun
  rw [hrun']

theorem pruned_archival {M : Int} {parseDate : String → Option Int} {es : List String} {c : Nat}
    {del : List (Int × String)} {out : Outcome} {s' : LoopState}
    (spec : PruneSpec M (loopStart parseDate es c) del out s') :
    archival s'.entries = s'.files := by
  rw [spec.entries_eq, spec.files_eq]
  simp only [loopStart]
  rw [← archival_afterLatest es]
  simp only [archival, List.filter_filter]
  apply List.filter_congr
  intro x _
  exact Bool.and_comm _ _

theorem pruned_deleted {M : Int} {parseDate : String → Option Int} {es : List String} {c : Nat}
    {del : List (Int × String)} {out : Outcome} {s' : LoopState}
    (spec : PruneSpec M (loopStart parseDate es c) del out s') :
    deletedFiles es s'.entries =
      (archival es).filter (fun x => !decide (x ∉ del.map Prod.snd)) := by
  unfold deletedFiles
  apply List.filter_congr
  intro x hx
  have h := mem_archival.1 hx
  have hx1 : x ∈ afterLatest es := mem_afterLatest h.1 (ne_latest_of_isArchival h.2)
  rw [spec.entries_eq]
  simp only [loopStart, List.mem_filter, hx1, true_and]
  by_cases hd : x ∈ del.map Prod.snd <;> simp [hd]

theorem pruned_deleted_length {M : Int} {parseDate : String → Option Int} {es : List String}
    {c : Nat} {del : List (Int × String)} {out : Outcome} {s' : LoopState}
    (spec : PruneSpec M (loopStart parseDate es c) del out s') :
    (deletedFiles es s'.entries).length = del.length := by
  rw [pruned_deleted spec]
  have h1 := List.length_eq_length_filter_add (l := archival es)
    (fun x => decide (x ∉ del.map Prod.snd))
  have h2 := spec.files_len
  have h3 : s'.files = (archival es).filter (fun x => decide (x ∉ del.map Prod.snd)) :=
    spec.files_eq
  rw [h3] at h2
  simp only [loopStart] at h2
  omega

theorem collectTimestamps_length (parseDate : String → Option Int) (es : List String) :
    (collectTimestamps parseDate (archival es)).length = distinctTimestamps parseDate es := by
  have h := same_length_of_nodup (collectTimestamps_keys_nodup parseDate (archival es))
    (List.nodup_dedup ((archival es).filterMap (fileTimestamp parseDate))) (by
      intro t
      rw [collectTimestamps_key_mem, List.mem_dedup, List.mem_filterMap])
  rw [List.length_map] at h
  exact h

theorem collectTimestamps_pair_mem {parseDate : String → Option Int} {files : List String}
    (hinj : ∀ f ∈ files, ∀ g ∈ files,
      fileTimestamp parseDate f = fileTimestamp parseDate g → f = g)
    {f : String} {t : Int} (hf : f ∈ files) (ht : fileTimestamp parseDate f = some t) :
    (t, f) ∈ collectTimestamps parseDate files := by
  have hk := (collectTimestamps_key_mem parseDate files t).2 ⟨f, hf, ht⟩
  obtain ⟨q, hq, hqt⟩ := List.mem_map.1 hk
  have h := collectTimestamps_mem parseDate files q hq
  have hqf : q.2 = f := hinj _ h.1 _ hf (by rw [h.2, ht, hqt])
  have : q = (t, f) := Prod.ext hqt hqf
  exact this ▸ hq

theorem collectTimestamps_length_of_inj {parseDate : String → Option Int} {files : List String}
    (hnd : files.Nodup)
    (hparse : ∀ f ∈ files, (fileTimestamp parseDate f).isSome = true)
    (hinj : ∀ f ∈ files, ∀ g ∈ files,
      fileTimestamp parseDate f = fileTimestamp parseDate g → f = g) :
    (collectTimestamps parseDate files).length = files.length := by
  have h := same_length_of_nodup (collectTimestamps_vals_nodup parseDate files) hnd (by
    intro f
    constructor
    · intro hf
      obtain ⟨q, hq, hqf⟩ := List.mem_map.1 hf
      exact hqf ▸ (collectTimestamps_mem parseDate files q hq).1
    · intro hf
      obtain ⟨t, ht⟩ := Option.isSome_iff_exists.1 (hparse f hf)
      exact List.mem_map.2 ⟨(t, f), collectTimestamps_pair_mem hinj hf ht, rfl⟩)
  rw [List.length_map] at h
  exact h


/-! ## The claims about `prepareLogDir` -/

/-- C5 as stated, refuted: when the listing fails with `ENOENT` and the directory cannot be
created either (its parent is missing, so `mkdirSync` throws `ENOENT`, or the parent is not
writable, so it throws `EACCES`), `prepareLogDir` does not return normally: it throws. -/
theorem missing_directory_not_always_created :
    (¬ ∃ w', prepareLogDir 3 isoDateParse
        { dir := .error "ENOENT", mkdirError := some "ENOENT", oldLogsDeleted := 0 } =
      some (.returned, w')) ∧
    prepareLogDir 3 isoDateParse
        { dir := .error "ENOENT", mkdirError := some "ENOENT", oldLogsDeleted := 0 } =
      some (.threw "ENOENT",
        { dir := .error "ENOENT", mkdirError := some "ENOENT", oldLogsDeleted := 0 }) ∧
    prepareLogDir 3 isoDateParse
        { dir := .error "ENOENT", mkdirError := some "EACCES", oldLogsDeleted := 0 } =
      some (.threw "EACCES",
        { dir := .error "ENOENT", mkdirError := some "EACCES", oldLogsDeleted := 0 }) := by
  refine ⟨?_, by decide, by decide⟩
  rintro ⟨w', h⟩
  have hval : prepareLogDir 3 isoDateParse
      { dir := .error "ENOENT", mkdirError := some "ENOENT", oldLogsDeleted := 0 } =
      some (.threw "ENOENT",
        { dir := .error "ENOENT", mkdirError := some "ENOENT", oldLogsDeleted := 0 }) := by
    decide
  rw [hval] at h
  simp only [Option.some.injEq, Prod.mk.injEq] at h
  exact absurd h.1 (by decide)

/-- Supporting fact for C5: when the listing fails with `ENOENT` and `mkdirSync` throws, that
error reaches the caller and the world is unchanged. -/
theorem prepareLogDir_mkdir_failure (M : Int) (parseDate : String → Option Int)
    (mkdirCode : String) (c : Nat) :
    prepareLogDir M parseDate
        { dir := .error "ENOENT", mkdirError := some mkdirCode, oldLogsDeleted := c } =
      some (.threw mkdirCode,
        { dir := .error "ENOENT", mkdirError := some mkdirCode, oldLogsDeleted := c }) := by
  simp [prepareLogDir, mkdirSync]

/-- C5 as amended: when listing the directory fails with `ENOENT` and the directory can be
created, `prepareLogDir` creates the (empty) directory, returns normally and leaves
`oldLogsDeleted` as it was; when the listing fails with any other code, that code is thrown and
the world is unchanged. -/
theorem prepareLogDir_listing_failure (M : Int) (parseDate : String → Option Int)
    (e : Option String) (c : Nat) :
    (e = none →
      prepareLogDir M parseDate { dir := .error "ENOENT", mkdirError := e, oldLogsDeleted := c } =
        some (.returned, { dir := .ok [], mkdirError := e, oldLogsDeleted := c })) ∧
      ∀ code : String, code ≠ "ENOENT" →
        prepareLogDir M parseDate { dir := .error code, mkdirError := e, oldLogsDeleted := c } =
          some (.threw code, { dir := .error code, mkdirError := e, oldLogsDeleted := c }) := by
  constructor
  · intro he
    subst he
    simp [prepareLogDir, mkdirSync]
  · intro code hcode
    simp [prepareLogDir, hcode]

theorem prepareLogDir_listing_failure_witness :
    prepareLogDir 3 isoDateParse
        { dir := .error "ENOENT", mkdirError := none, oldLogsDeleted := 7 } =
      some (.returned, { dir := .ok [], mkdirError := none, oldLogsDeleted := 7 }) ∧
    prepareLogDir 3 isoDateParse
        { dir := .error "EACCES", mkdirError := none, oldLogsDeleted := 7 } =
      some (.threw "EACCES", { dir := .error "EACCES", mkdirError := none, oldLogsDeleted := 7 }) :=
  ⟨(prepareLogDir_listing_failure 3 isoDateParse none 7).1 rfl,
    (prepareLogDir_listing_failure 3 isoDateParse none 7).2 "EACCES" (by decide)⟩

/-- C2: on every existing directory, in particular one that contains `latest.log`,
`prepareLogDir` ends (returning or throwing) with a directory that does not contain `latest.log`,
for every threshold. -/
theorem latest_log_removed {e : Option String}
    (M : Int) (parseDate : String → Option Int) (es : List String)
    (c : Nat) (hnd : es.Nodup) :
    ∃ out es' c',
      prepareLogDir M parseDate { mkdirError := e, dir := .ok es, oldLogsDeleted := c } =
        some (out, { mkdirError := e, dir := .ok es', oldLogsDeleted := c' }) ∧
      "latest.log" ∉ es' := by
  rw [prepareLogDir_ok]
  split
  · rename_i hcond
    obtain ⟨r, hr⟩ := pruneLoop_isSome (M := M) (by omega) ((trackedFiles es).length + 1)
      { entries := afterLatest es
        files := trackedFiles es
        fileNamesTimestamps := collectTimestamps parseDate (trackedFiles es)
        oldLogsDeleted := c } (Nat.lt_succ_self _)
    have hsub := pruneLoop_entries_sublist _ _ _ hr
    rw [hr]
    exact ⟨r.1, r.2.entries, r.2.oldLogsDeleted, rfl,
      fun h => latest_not_mem_afterLatest hnd (hsub.subset h)⟩
  · exact ⟨_, _, _, rfl, latest_not_mem_afterLatest hnd⟩

theorem latest_log_removed_witness :
    ∃ out es' c',
      prepareLogDir 2 isoDateParse { mkdirError := none, dir := .ok exampleDir, oldLogsDeleted := 0 } =
        some (out, { mkdirError := none, dir := .ok es', oldLogsDeleted := c' }) ∧
      "latest.log" ∉ es' :=
  latest_log_removed 2 isoDateParse exampleDir 0 (by decide)

/-- C3: a file of the directory whose name ends in `.log`, is not `latest.log` and does not parse
to a valid timestamp is still in the directory when `prepareLogDir` ends, whether it returns or
throws, for every threshold. -/
theorem unparseable_file_kept {e : Option String}
    (M : Int) (parseDate : String → Option Int) (es : List String)
    (c : Nat) (f : String) (hf : f ∈ es) (hlog : endsWithLog f = true)
    (hne : f ≠ "latest.log") (hts : fileTimestamp parseDate f = none) :
    ∃ out es' c',
      prepareLogDir M parseDate { mkdirError := e, dir := .ok es, oldLogsDeleted := c } =
        some (out, { mkdirError := e, dir := .ok es', oldLogsDeleted := c' }) ∧
      f ∈ es' := by
  have hf1 : f ∈ afterLatest es := mem_afterLatest hf hne
  rw [prepareLogDir_ok]
  split
  · rename_i hcond
    obtain ⟨r, hr⟩ := pruneLoop_isSome (M := M) (by omega) ((trackedFiles es).length + 1)
      { entries := afterLatest es
        files := trackedFiles es
        fileNamesTimestamps := collectTimestamps parseDate (trackedFiles es)
        oldLogsDeleted := c } (Nat.lt_succ_self _)
    have hkeep := pruneLoop_keeps _ _ _ hr f hf1
      (by
        intro e
        rw [e, endsWithLog_undefined] at hlog
        exact Bool.false_ne_true hlog)
      (by
        intro hmem
        obtain ⟨q, hq, hqf⟩ := List.mem_map.1 hmem
        have h := (collectTimestamps_mem parseDate _ q hq).2
        rw [hqf, hts] at h
        cases h)
    rw [hr]
    exact ⟨r.1, r.2.entries, r.2.oldLogsDeleted, rfl, hkeep⟩
  · exact ⟨_, _, _, rfl, hf1⟩

theorem unparseable_file_kept_witness :
    ∃ out es' c',
      prepareLogDir 1 isoDateParse
          { mkdirError := none, dir := .ok ["not-a-timestamp.log", "2023-01-01T00-00-00.000Z.log", "junk.log"],
            oldLogsDeleted := 0 } =
        some (out, { mkdirError := none, dir := .ok es', oldLogsDeleted := c' }) ∧
      "not-a-timestamp.log" ∈ es' :=
  unparseable_file_kept 1 isoDateParse
    ["not-a-timestamp.log", "2023-01-01T00-00-00.000Z.log", "junk.log"] 0
    "not-a-timestamp.log" (by decide) (by decide) (by decide) (by decide)

/-- C4: for a threshold `maxSavedLogs ≤ 0`, `prepareLogDir` returns with the same archival files
in the directory as before and with `oldLogsDeleted` unchanged. -/
theorem no_pruning_when_disabled {e : Option String} (M : Int) (parseDate : String → Option Int)
    (es : List String) (c : Nat) (hM : M ≤ 0) :
    ∃ es',
      prepareLogDir M parseDate { mkdirError := e, dir := .ok es, oldLogsDeleted := c } =
        some (.returned, { mkdirError := e, dir := .ok es', oldLogsDeleted := c }) ∧
      archival es' = archival es := by
  refine ⟨afterLatest es, ?_, archival_afterLatest es⟩
  rw [prepareLogDir_ok, if_neg]
  intro h
  omega

theorem no_pruning_when_disabled_witness :
    ∃ es',
      prepareLogDir 0 isoDateParse { mkdirError := none, dir := .ok exampleDir, oldLogsDeleted := 5 } =
        some (.returned, { mkdirError := none, dir := .ok es', oldLogsDeleted := 5 }) ∧
      archival es' = archival exampleDir :=
  no_pruning_when_disabled 0 isoDateParse exampleDir 5 (by decide)

/-- C1: on an existing directory whose `N` archival files all parse to pairwise distinct
timestamps, with a threshold `0 < M ≤ N`, `prepareLogDir` returns; it has deleted exactly
`N - M + 1` archival files and counted them, `M - 1` archival files remain, every deleted file is
older than every surviving one, nothing is added, and no entry other than archival files and
`latest.log` is removed. -/
theorem prune_deletes_oldest {e : Option String}
    (M : Int) (parseDate : String → Option Int) (es : List String)
    (c : Nat) (hnd : es.Nodup) (hM : 0 < M) (hN : M ≤ ((archival es).length : Int))
    (hparse : ∀ f ∈ archival es, (fileTimestamp parseDate f).isSome = true)
    (hinj : ∀ f ∈ archival es, ∀ g ∈ archival es,
      fileTimestamp parseDate f = fileTimestamp parseDate g → f = g) :
    ∃ es',
      prepareLogDir M parseDate { mkdirError := e, dir := .ok es, oldLogsDeleted := c } =
        some (.returned,
          { mkdirError := e, dir := .ok es', oldLogsDeleted := c + (deletedFiles es es').length }) ∧
      ((deletedFiles es es').length : Int) = ((archival es).length : Int) - M + 1 ∧
      ((archival es').length : Int) = M - 1 ∧
      (∀ x ∈ es', x ∈ es) ∧
      (∀ x ∈ es, isArchival x = false → x ≠ "latest.log" → x ∈ es') ∧
      (∀ d ∈ deletedFiles es es', ∀ k ∈ archival es',
        ∃ td tk, fileTimestamp parseDate d = some td ∧ fileTimestamp parseDate k = some tk ∧
          td < tk) := by
  have hlen := collectTimestamps_length_of_inj (hnd.filter isArchival) hparse hinj
  change (collectTimestamps parseDate (archival es)).length = (archival es).length at hlen
  obtain ⟨del, out, s', hrun, spec⟩ := prepareLogDir_pruned parseDate c hnd hM hN (by
    intro _
    rw [hlen]
    omega)
  have harch := pruned_archival spec
  have hdel := pruned_deleted_length spec
  have hfl := spec.files_len
  have hml := spec.map_len
  have hcount := spec.count_eq
  simp only [loopStart] at hfl hml hcount
  rw [hlen] at hml
  have hend : out = .returned ∧ (s'.files.length : Int) + 1 = M := by
    rcases spec.ending with ⟨h1, h2, h3⟩ | ⟨_, h2, h3⟩
    · refine ⟨h1, ?_⟩
      rcases h3 with h3 | h3
      · subst h3
        simp only [List.length_nil] at hfl
        omega
      · exact h3
    · rw [h2] at hml
      simp only [List.length_nil] at hml
      omega
  refine ⟨s'.entries, ?_, ?_, ?_, ?_, ?_, ?_⟩
  · rw [hrun, hend.1, hdel, hcount]
  · rw [hdel]
    omega
  · rw [harch]
    omega
  · intro x hx
    rw [spec.entries_eq] at hx
    exact (afterLatest_sublist es).subset (List.mem_filter.1 hx).1
  · intro x hx hnot hne
    rw [spec.entries_eq]
    refine List.mem_filter.2 ⟨mem_afterLatest hx hne, ?_⟩
    simp only [decide_eq_true_eq]
    intro hmem
    obtain ⟨q, hq, hqx⟩ := List.mem_map.1 hmem
    have h1 := (collectTimestamps_mem parseDate _ q (spec.del_sub q hq)).1
    rw [hqx] at h1
    rw [(mem_archival.1 h1).2] at hnot
    exact Bool.noConfusion hnot
  · intro d hd k hk
    rw [pruned_deleted spec] at hd
    have hd1 := List.mem_filter.1 hd
    have hd2 : d ∈ del.map Prod.snd := by
      by_contra hcon
      simp [hcon] at hd1
    obtain ⟨q, hq, hqd⟩ := List.mem_map.1 hd2
    have hq1 := collectTimestamps_mem parseDate _ q (spec.del_sub q hq)
    rw [harch, spec.files_eq] at hk
    have hk1 := List.mem_filter.1 hk
    simp only [loopStart, decide_eq_true_eq] at hk1
    obtain ⟨tk, htk⟩ := Option.isSome_iff_exists.1 (hparse k hk1.1)
    have hpair : (tk, k) ∈ collectTimestamps parseDate (archival es) :=
      collectTimestamps_pair_mem hinj hk1.1 htk
    have hrem : (tk, k) ∈ s'.fileNamesTimestamps := by
      refine (spec.map_mem (tk, k)).2 ⟨hpair, ?_⟩
      intro hin
      exact hk1.2 (List.mem_map.2 ⟨(tk, k), hin, rfl⟩)
    refine ⟨q.1, tk, ?_, htk, spec.older q hq (tk, k) hrem⟩
    rw [← hqd]
    exact hq1.2

theorem prune_deletes_oldest_witness :
    ∃ es',
      prepareLogDir 2 isoDateParse { mkdirError := none, dir := .ok exampleDir, oldLogsDeleted := 0 } =
        some (.returned,
          { mkdirError := none, dir := .ok es', oldLogsDeleted := 0 + (deletedFiles exampleDir es').length }) ∧
      ((deletedFiles exampleDir es').length : Int) =
        ((archival exampleDir).length : Int) - 2 + 1 ∧
      ((archival es').length : Int) = 2 - 1 ∧
      (∀ x ∈ es', x ∈ exampleDir) ∧
      (∀ x ∈ exampleDir, isArchival x = false → x ≠ "latest.log" → x ∈ es') ∧
      (∀ d ∈ deletedFiles exampleDir es', ∀ k ∈ archival es',
        ∃ td tk, fileTimestamp isoDateParse d = some td ∧
          fileTimestamp isoDateParse k = some tk ∧ td < tk) :=
  prune_deletes_oldest 2 isoDateParse exampleDir 0 (by decide) (by decide) (by decide)
    (by decide) (by decide)

/-- C10: on an existing directory without repeated names and without an entry `undefined`, with
`n` archival files carrying `d` distinct timestamps, `prepareLogDir` always ends; it throws
(`ENOENT`, from deleting `undefined`) exactly when `0 < M`, `M ≤ n` and `d < n - M + 1`, and it has
then deleted exactly `d` archival files and raised `oldLogsDeleted` by `d`; otherwise it
returns. -/
theorem prune_failure_condition {e : Option String}
    (M : Int) (parseDate : String → Option Int) (es : List String)
    (c : Nat) (hnd : es.Nodup) (hund : "undefined" ∉ es) :
    ∃ out es' c',
      prepareLogDir M parseDate { mkdirError := e, dir := .ok es, oldLogsDeleted := c } =
        some (out, { mkdirError := e, dir := .ok es', oldLogsDeleted := c' }) ∧
      (out = .returned ∨ out = .threw "ENOENT") ∧
      (out = .threw "ENOENT" ↔
        (0 < M ∧ M ≤ ((archival es).length : Int) ∧
          (distinctTimestamps parseDate es : Int) < ((archival es).length : Int) - M + 1)) ∧
      (out = .threw "ENOENT" →
        (deletedFiles es es').length = distinctTimestamps parseDate es ∧
          c' = c + distinctTimestamps parseDate es) := by
  by_cases hcond : 0 < M ∧ M ≤ ((archival es).length : Int)
  · obtain ⟨del, out, s', hrun, spec⟩ :=
      prepareLogDir_pruned parseDate c hnd hcond.1 hcond.2 (fun h => absurd h hund)
    have hdel := pruned_deleted_length spec
    have hfl := spec.files_len
    have hml := spec.map_len
    have hcount := spec.count_eq
    simp only [loopStart] at hfl hml hcount
    rw [collectTimestamps_length] at hml
    refine ⟨out, s'.entries, s'.oldLogsDeleted, hrun, ?_⟩
    rcases spec.ending with ⟨h1, h2, _⟩ | ⟨h1, h2, h3⟩
    · subst h1
      refine ⟨Or.inl rfl, ?_, ?_⟩
      · constructor
        · intro h; cases h
        · rintro ⟨_, _, h⟩
          omega
      · intro h; cases h
    · subst h1
      rw [h2] at hml
      simp only [List.length_nil] at hml
      refine ⟨Or.inr rfl, ?_, ?_⟩
      · constructor
        · intro _
          exact ⟨hcond.1, hcond.2, by omega⟩
        · intro _; rfl
      · intro _
        exact ⟨by omega, by omega⟩
  · refine ⟨.returned, afterLatest es, c, prepareLogDir_skipped parseDate c hnd hcond,
      Or.inl rfl, ?_, ?_⟩
    · constructor
      · intro h; cases h
      · rintro ⟨h1, h2, _⟩
        exact absurd ⟨h1, h2⟩ hcond
    · intro h; cases h

theorem prune_failure_condition_witness :
    ∃ out es' c',
      prepareLogDir 2 isoDateParse
          { mkdirError := none, dir := .ok ["a.log", "b.log", "2023-01-01T00-00-00.000Z.log", "latest.log"],
            oldLogsDeleted := 0 } =
        some (out, { mkdirError := none, dir := .ok es', oldLogsDeleted := c' }) ∧
      (out = .returned ∨ out = .threw "ENOENT") ∧
      (out = .threw "ENOENT" ↔
        ((0 : Int) < 2 ∧
          (2 : Int) ≤ ((archival
            ["a.log", "b.log", "2023-01-01T00-00-00.000Z.log", "latest.log"]).length : Int) ∧
          (distinctTimestamps isoDateParse
            ["a.log", "b.log", "2023-01-01T00-00-00.000Z.log", "latest.log"] : Int) <
            ((archival
              ["a.log", "b.log", "2023-01-01T00-00-00.000Z.log", "latest.log"]).length : Int)
              - 2 + 1)) ∧
      (out = .threw "ENOENT" →
        (deletedFiles ["a.log", "b.log", "2023-01-01T00-00-00.000Z.log", "latest.log"]
            es').length =
          distinctTimestamps isoDateParse
            ["a.log", "b.log", "2023-01-01T00-00-00.000Z.log", "latest.log"] ∧
          c' = 0 + distinctTimestamps isoDateParse
            ["a.log", "b.log", "2023-01-01T00-00-00.000Z.log", "latest.log"]) :=
  prune_failure_condition 2 isoDateParse
    ["a.log", "b.log", "2023-01-01T00-00-00.000Z.log", "latest.log"] 0 (by decide) (by decide)


/-- Supporting fact for C6: on a directory without repeated names and without an entry
`undefined`, a call that returns leaves no `latest.log` and, for a threshold `0 < M`, fewer than
`M` archival files. -/
theorem cleanup_postcondition_without_undefined {e : Option String}
    (M : Int) (parseDate : String → Option Int)
    (es : List String) (c : Nat) (hnd : es.Nodup) (hund : "undefined" ∉ es) (hM : 0 < M)
    (es' : List String) (c' : Nat)
    (hrun : prepareLogDir M parseDate { mkdirError := e, dir := .ok es, oldLogsDeleted := c } =
      some (.returned, { mkdirError := e, dir := .ok es', oldLogsDeleted := c' })) :
    "latest.log" ∉ es' ∧ ((archival es').length : Int) < M := by
  by_cases hcond : 0 < M ∧ M ≤ ((archival es).length : Int)
  · obtain ⟨del, out, s', hrun', spec⟩ :=
      prepareLogDir_pruned parseDate c hnd hcond.1 hcond.2 (fun h => absurd h hund)
    rw [hrun] at hrun'
    simp only [Option.some.injEq, Prod.mk.injEq, World.mk.injEq, Except.ok.injEq] at hrun'
    obtain ⟨hout, hes, _⟩ := hrun'
    have harch := pruned_archival spec
    rw [← hes] at harch
    constructor
    · rw [hes, spec.entries_eq]
      intro h
      exact latest_not_mem_afterLatest hnd (List.mem_filter.1 h).1
    · rcases spec.ending with ⟨_, h2, _⟩ | ⟨h1, _, _⟩
      · rw [harch]
        exact h2
      · rw [← hout] at h1
        cases h1
  · rw [prepareLogDir_skipped parseDate c hnd hcond] at hrun
    simp only [Option.some.injEq, Prod.mk.injEq, World.mk.injEq, Except.ok.injEq, true_and]
      at hrun
    rw [← hrun.1]
    refine ⟨latest_not_mem_afterLatest hnd, ?_⟩
    rw [archival_afterLatest]
    omega

/-- C6, the code at the failing input: with threshold 1 and a directory that holds a file named
`undefined` and one archival file whose name does not parse, `prepareLogDir` returns after
deleting `undefined`; the archival file is still there, so the directory does not hold fewer
than 1 archival files. -/
theorem cleanup_postcondition_fails :
    prepareLogDir 1 isoDateParse
        { mkdirError := none, dir := .ok ["undefined", "not-a-timestamp.log"], oldLogsDeleted := 0 } =
      some (.returned, { mkdirError := none, dir := .ok ["not-a-timestamp.log"], oldLogsDeleted := 1 }) ∧
    ¬ ((archival ["not-a-timestamp.log"]).length : Int) < 1 := by
  decide

/-- C8 as stated, refuted: with threshold 2, one archival file whose name does not parse and one
valid one, `prepareLogDir` does not return with the directory untouched; it deletes the valid
file. -/
theorem unparseable_files_do_count :
    (¬ ∃ c', prepareLogDir 2 isoDateParse
        { mkdirError := none, dir := .ok ["not-a-timestamp.log", "2023-01-01T00-00-00.000Z.log"],
          oldLogsDeleted := 0 } =
      some (.returned,
        { mkdirError := none, dir := .ok ["not-a-timestamp.log", "2023-01-01T00-00-00.000Z.log"],
          oldLogsDeleted := c' })) ∧
    prepareLogDir 2 isoDateParse
        { mkdirError := none, dir := .ok ["not-a-timestamp.log", "2023-01-01T00-00-00.000Z.log"],
          oldLogsDeleted := 0 } =
      some (.returned, { mkdirError := none, dir := .ok ["not-a-timestamp.log"], oldLogsDeleted := 1 }) := by
  have hval : prepareLogDir 2 isoDateParse
      { mkdirError := none, dir := .ok ["not-a-timestamp.log", "2023-01-01T00-00-00.000Z.log"],
        oldLogsDeleted := 0 } =
      some (.returned, { mkdirError := none, dir := .ok ["not-a-timestamp.log"], oldLogsDeleted := 1 }) := by
    decide
  refine ⟨?_, hval⟩
  rintro ⟨c', h⟩
  rw [hval] at h
  simp only [Option.some.injEq, Prod.mk.injEq, World.mk.injEq, Except.ok.injEq, true_and] at h
  exact absurd h.1 (by decide)

theorem collectTimestamps_single {parseDate : String → Option Int} {files : List String}
    {g : String} {t : Int} (hg : g ∈ files) (ht : fileTimestamp parseDate g = some t)
    (hother : ∀ f ∈ files, f ≠ g → fileTimestamp parseDate f = none) :
    collectTimestamps parseDate files = [(t, g)] := by
  have hall : ∀ q ∈ collectTimestamps parseDate files, q = (t, g) := by
    intro q hq
    have h := collectTimestamps_mem parseDate files q hq
    have hqg : q.2 = g := by
      by_contra hne
      rw [hother _ h.1 hne] at h
      cases h.2
    have hqt : q.1 = t := by
      have h2 := h.2
      rw [hqg, ht] at h2
      exact (Option.some.inj h2).symm
    exact Prod.ext hqt hqg
  have hk := (collectTimestamps_key_mem parseDate files t).2 ⟨g, hg, ht⟩
  have hnd : (collectTimestamps parseDate files).Nodup :=
    List.Nodup.of_map _ (collectTimestamps_keys_nodup parseDate files)
  cases hm : collectTimestamps parseDate files with
  | nil =>
    rw [hm] at hk
    simp at hk
  | cons q rest =>
    rw [hm] at hall hnd
    have hq : q = (t, g) := hall q (List.mem_cons_self _ _)
    cases rest with
    | nil => rw [hq]
    | cons q2 rest2 =>
      exfalso
      have hq2 : q2 = (t, g) := hall q2 (by simp)
      rw [hq, hq2] at hnd
      simp at hnd

/-- C8 as amended: files with unparseable names do count toward the threshold comparison. On an
existing directory whose archival files are `k` files with unparseable names plus exactly one
file `g` with a valid timestamp (for every `k`, in particular `k ≥ 1`) and every threshold `M`
(in particular `M ≥ 2`): when `k + 1 < M`, `prepareLogDir` returns and deletes no archival file;
when `k + 1 = M`, it returns after deleting exactly the valid file `g`, with `oldLogsDeleted`
raised by one. -/
theorem unparseable_files_counted {e : Option String} (M : Int) (parseDate : String → Option Int)
    (es : List String) (c : Nat) (g : String) (t : Int) (hnd : es.Nodup)
    (hg : g ∈ archival es) (ht : fileTimestamp parseDate g = some t)
    (hother : ∀ f ∈ archival es, f ≠ g → fileTimestamp parseDate f = none) :
    (((archival es).length : Int) < M →
      prepareLogDir M parseDate { mkdirError := e, dir := .ok es, oldLogsDeleted := c } =
        some (.returned, { mkdirError := e, dir := .ok (afterLatest es), oldLogsDeleted := c })) ∧
    (((archival es).length : Int) = M →
      prepareLogDir M parseDate { mkdirError := e, dir := .ok es, oldLogsDeleted := c } =
        some (.returned,
          { mkdirError := e, dir := .ok ((afterLatest es).erase g), oldLogsDeleted := c + 1 })) := by
  constructor
  · intro hlt
    exact prepareLogDir_skipped parseDate c hnd (by omega)
  · intro heq
    have hmap := collectTimestamps_single hg ht hother
    have hga : g ∈ afterLatest es :=
      mem_afterLatest (mem_archival.1 hg).1 (ne_latest_of_isArchival (mem_archival.1 hg).2)
    have hlen : ((archival es).erase g).length + 1 = (archival es).length := by
      have hpos : 0 < (archival es).length := List.length_pos_of_mem hg
      rw [List.length_erase_of_mem hg]
      omega
    have hfuel : (archival es).length = ((archival es).erase g).length + 1 := hlen.symm
    rw [prepareLogDir_ok, trackedFiles_eq_archival hnd, if_pos ⟨by omega, by omega⟩, hmap]
    have hstep : pruneLoop M ((archival es).length + 1)
        { entries := afterLatest es
          files := archival es
          fileNamesTimestamps := [(t, g)]
          oldLogsDeleted := c } =
        some (.returned,
          { entries := (afterLatest es).erase g
            files := (archival es).erase g
            fileNamesTimestamps := []
            oldLogsDeleted := c + 1 }) := by
      rw [pruneLoop_succ, if_pos (by simp only [ge_iff_le]; omega)]
      simp only [List.map_cons, List.map_nil, mathMin, mapGet, List.find?_cons, beq_self_eq_true,
        Option.map_some', display, rmSync, hga, if_true, splice_indexOf_of_mem hg, mapDelete,
        List.filter_cons, bne_self_eq_false, Bool.false_eq_true, if_false, List.filter_nil]
      rw [hfuel, pruneLoop_succ, if_neg (by simp only [ge_iff_le]; omega)]
    rw [hstep]

theorem unparseable_files_counted_witness :
    prepareLogDir 2 isoDateParse
        { mkdirError := none, dir := .ok ["not-a-timestamp.log", "2023-01-01T00-00-00.000Z.log"],
          oldLogsDeleted := 0 } =
      some (.returned,
        { mkdirError := none, dir := .ok ((afterLatest
            ["not-a-timestamp.log", "2023-01-01T00-00-00.000Z.log"]).erase
              "2023-01-01T00-00-00.000Z.log"),
          oldLogsDeleted := 0 + 1 }) :=
  (unparseable_files_counted 2 isoDateParse
    ["not-a-timestamp.log", "2023-01-01T00-00-00.000Z.log"] 0
    "2023-01-01T00-00-00.000Z.log" 1672531200000 (by decide) (by decide) (by decide)
    (by decide)).2 (by decide)

/-- C7, the worked example as the specification states it, refuted: no run on the example
directory with threshold 2 ends with `latest.log` and the 2023-01-01 file gone and both the
2023-01-02 and the 2023-01-03 file present. -/
theorem worked_example_as_stated_fails :
    ¬ ∃ out es' c',
      prepareLogDir 2 isoDateParse { mkdirError := none, dir := .ok exampleDir, oldLogsDeleted := 0 } =
        some (out, { mkdirError := none, dir := .ok es', oldLogsDeleted := c' }) ∧
      "latest.log" ∉ es' ∧ "2023-01-01T00-00-00.000Z.log" ∉ es' ∧
      "2023-01-02T00-00-00.000Z.log" ∈ es' ∧ "2023-01-03T00-00-00.000Z.log" ∈ es' ∧
      c' = 2 := by
  rintro ⟨out, es', c', hrun, _, _, h2, _, _⟩
  have hval : prepareLogDir 2 isoDateParse { mkdirError := none, dir := .ok exampleDir, oldLogsDeleted := 0 } =
      some (.returned, { mkdirError := none, dir := .ok ["2023-01-03T00-00-00.000Z.log"], oldLogsDeleted := 2 }) := by
    decide
  rw [hval] at hrun
  simp only [Option.some.injEq, Prod.mk.injEq, World.mk.injEq, Except.ok.injEq] at hrun
  rw [← hrun.2.1] at h2
  revert h2
  decide

/-- C7 as amended: on the example directory with threshold 2 and `oldLogsDeleted = 0`, for every
date parser that reads the three names as increasing timestamps, `prepareLogDir` returns with
`latest.log`, the 2023-01-01 file and the 2023-01-02 file gone, only the 2023-01-03 file left,
and `oldLogsDeleted = 2`. -/
theorem worked_example {e : Option String} (parseDate : String → Option Int) (t1 t2 t3 : Int)
    (h1 : parseDate "2023-01-01T00:00:00.000Z" = some t1)
    (h2 : parseDate "2023-01-02T00:00:00.000Z" = some t2)
    (h3 : parseDate "2023-01-03T00:00:00.000Z" = some t3)
    (h12 : t1 < t2) (h23 : t2 < t3) :
    prepareLogDir 2 parseDate { mkdirError := e, dir := .ok exampleDir, oldLogsDeleted := 0 } =
      some (.returned, { mkdirError := e, dir := .ok ["2023-01-03T00-00-00.000Z.log"], oldLogsDeleted := 2 }) := by
  have e1 : timestampText "2023-01-01T00-00-00.000Z.log" = "2023-01-01T00:00:00.000Z" := by
    decide
  have e2 : timestampText "2023-01-02T00-00-00.000Z.log" = "2023-01-02T00:00:00.000Z" := by
    decide
  have e3 : timestampText "2023-01-03T00-00-00.000Z.log" = "2023-01-03T00:00:00.000Z" := by
    decide
  have n12 : t1 ≠ t2 := ne_of_lt h12
  have n23 : t2 ≠ t3 := ne_of_lt h23
  have n13 : t1 ≠ t3 := ne_of_lt (lt_trans h12 h23)
  have hmap : collectTimestamps parseDate
      ["2023-01-01T00-00-00.000Z.log", "2023-01-02T00-00-00.000Z.log",
        "2023-01-03T00-00-00.000Z.log"] =
      [(t1, "2023-01-01T00-00-00.000Z.log"), (t2, "2023-01-02T00-00-00.000Z.log"),
        (t3, "2023-01-03T00-00-00.000Z.log")] := by
    simp [collectTimestamps, e1, e2, e3, h1, h2, h3, mapSet, n12, n23, n13]
  have htf : trackedFiles exampleDir =
      ["2023-01-01T00-00-00.000Z.log", "2023-01-02T00-00-00.000Z.log",
        "2023-01-03T00-00-00.000Z.log"] := by decide
  have hal : afterLatest exampleDir =
      ["2023-01-01T00-00-00.000Z.log", "2023-01-02T00-00-00.000Z.log",
        "2023-01-03T00-00-00.000Z.log"] := by decide
  have m1 : min t1 t2 = t1 := min_eq_left (le_of_lt h12)
  have m2 : min t2 t3 = t2 := min_eq_left (le_of_lt h23)
  rw [prepareLogDir_ok, htf, hal, hmap]
  simp [pruneLoop_succ, mathMin, mapGet, mapDelete, display, rmSync, m1, m2, n12, n23, n13,
    n12.symm, n23.symm, n13.symm, splice, indexOf, List.indexOf_cons]

theorem worked_example_witness :
    prepareLogDir 2 isoDateParse { mkdirError := none, dir := .ok exampleDir, oldLogsDeleted := 0 } =
      some (.returned, { mkdirError := none, dir := .ok ["2023-01-03T00-00-00.000Z.log"], oldLogsDeleted := 2 }) :=
  worked_example isoDateParse 1672531200000 1672617600000 1672704000000
    (by decide) (by decide) (by decide) (by decide) (by decide)


/-! ## The file-name codec -/

theorem matchesDotStarT_cons (c : Char) (rest : List Char) :
    matchesDotStarT (c :: rest) =
      (!isLineTerminator c && (c == 'T' || matchesDotStarT rest)) := by
  unfold matchesDotStarT
  rw [List.takeWhile_cons]
  cases h : isLineTerminator c
  · simp only [Bool.not_false, if_true, List.contains_cons, Bool.true_and]
    congr 1
    exact Bool.eq_iff_iff.2 (by simp only [beq_iff_eq]; exact eq_comm)
  · simp

theorem replaced_colon_isLineTerminator (c : Char) :
    isLineTerminator (if c == ':' then '-' else c) = isLineTerminator c := by
  by_cases h : c = ':'
  · subst h; decide
  · simp [h]

theorem replaced_colon_eq_T (c : Char) :
    ((if c == ':' then '-' else c) == 'T') = (c == 'T') := by
  by_cases h : c = ':'
  · subst h; decide
  · simp [h]

theorem matchesDotStarT_replaceColons (l : List Char) :
    matchesDotStarT (replaceColons l) = matchesDotStarT l := by
  induction l with
  | nil => rfl
  | cons c rest ih =>
    have h : replaceColons (c :: rest) = (if c == ':' then '-' else c) :: replaceColons rest :=
      rfl
    rw [h, matchesDotStarT_cons, matchesDotStarT_cons, ih, replaced_colon_isLineTerminator,
      replaced_colon_eq_T]

theorem replaceHyphens_replaceColons_iff (l : List Char) :
    replaceHyphens (replaceColons l) = l ↔ decodable l = true := by
  induction l with
  | nil => simp [replaceHyphens, replaceColons, decodable]
  | cons c rest ih =>
    have h : replaceColons (c :: rest) = (if c == ':' then '-' else c) :: replaceColons rest :=
      rfl
    have ih' : replaceHyphens (List.map (fun c => if c = ':' then '-' else c) rest) = rest ↔
        decodable rest = true := by
      simpa [replaceColons] using ih
    rw [h]
    simp only [replaceHyphens, decodable, matchesDotStarT_replaceColons, List.cons.injEq,
      Bool.and_eq_true]
    rw [ih]
    apply and_congr_left
    intro _
    by_cases hc : c = ':'
    · subst hc
      cases hm : matchesDotStarT rest <;> simp
    · by_cases hh : c = '-'
      · subst hh
        cases hm : matchesDotStarT rest <;> simp
      · simp [hc, hh]

theorem slice0_append_log (l : List Char) :
    slice0 (l ++ ".log".data) (((l ++ ".log".data).length : Int) - 4) = l := by
  have hlen : (l ++ ".log".data).length = l.length + 4 := by
    rw [List.length_append]
    rfl
  have h1 : ¬ (((l ++ ".log".data).length : Int) - 4 < 0) := by
    rw [hlen]
    push_cast
    omega
  have h2 : (min (((l ++ ".log".data).length : Int) - 4)
      ((l ++ ".log".data).length : Int)).toNat = l.length := by
    rw [hlen]
    push_cast
    omega
  simp only [slice0, if_neg h1, h2, List.take_left']

theorem timestampText_archiveFileName (s : String) :
    timestampText (archiveFileName s) = String.mk (replaceHyphens (replaceColons s.data)) := by
  show String.mk (replaceHyphens (slice0 (replaceColons s.data ++ ".log".data)
    (((replaceColons s.data ++ ".log".data).length : Int) - 4))) = _
  rw [slice0_append_log]

/-- The round trip of the codec holds exactly for the decodable texts. -/
theorem roundtrip_iff (s : String) :
    timestampText (archiveFileName s) = s ↔ decodable s.data = true := by
  rw [timestampText_archiveFileName, ← replaceHyphens_replaceColons_iff]
  constructor
  · intro h
    have := congrArg String.data h
    exact this
  · intro h
    rw [h]

theorem matchesDotStarT_of_singleLine {l : List Char}
    (h : l.all (fun c => !isLineTerminator c) = true) :
    matchesDotStarT l = l.contains 'T' := by
  induction l with
  | nil => rfl
  | cons c rest ih =>
    rw [List.all_cons, Bool.and_eq_true] at h
    rw [matchesDotStarT_cons, ih h.2, h.1, List.contains_cons, Bool.true_and]
    congr 1
    exact Bool.eq_iff_iff.2 (by simp only [beq_iff_eq]; exact eq_comm)

theorem decodable_of_shape {l : List Char} (hline : l.all (fun c => !isLineTerminator c) = true) :
    ∀ seenT : Bool, shapeFrom seenT l = true → decodable l = true := by
  induction l with
  | nil => intro _ _; rfl
  | cons c rest ih =>
    intro seenT h
    rw [List.all_cons, Bool.and_eq_true] at hline
    simp only [shapeFrom, Bool.and_eq_true] at h
    simp only [decodable, Bool.and_eq_true, matchesDotStarT_of_singleLine hline.2]
    refine ⟨?_, ih hline.2 _ h.2⟩
    have h1 := h.1
    by_cases hc : c = ':'
    · subst hc
      simp only [beq_self_eq_true, if_true, Bool.and_eq_true] at h1 ⊢
      exact h1.2
    · by_cases hh : c = '-'
      · subst hh
        simpa using h1
      · simp [hc, hh]

/-- C9 as stated, refuted: the text made of a hyphen, a line feed and a `T` has the claimed
shape (no colon, its hyphen before the last `T`), yet the name written for it is not decoded
back to it. -/
theorem roundtrip_fails_across_lines :
    claimedShape "-\nT" = true ∧ timestampText (archiveFileName "-\nT") ≠ "-\nT" := by
  decide

/-- C9 as amended: for every text without a line terminator in which every `:` occurs after the
last `T` and every `-` occurs before the last `T`, the name the logger writes for it is decoded by
`prepareLogDir` back to exactly that text. -/
theorem roundtrip_single_line (s : String) (hshape : claimedShape s = true)
    (hline : singleLine s = true) :
    timestampText (archiveFileName s) = s :=
  (roundtrip_iff s).2 (decodable_of_shape hline false hshape)

theorem roundtrip_single_line_witness :
    timestampText (archiveFileName "2023-01-01T00:00:00.000Z") = "2023-01-01T00:00:00.000Z" :=
  roundtrip_single_line "2023-01-01T00:00:00.000Z" (by decide) (by decide)


end FrogBot
